import Mathlib

/-!
Verification of the embedded-text layout engine against its specification.
The Rust sources are shallowly embedded: the tokenizer state is the list of
remaining characters, tokens carry their character spans, and the rendering
entry points are pure functions.
-/

namespace EmbeddedText

/-- A text token, embedding `parser::Token`. A `Word` stores its span as the
list of characters of the borrowed slice. The `Whitespace` run length is a u32
in the source; it is embedded as a natural number that the producing loop keeps
below 2 to the power 32 by incrementing modulo 4294967296, mirroring the wrap
of the machine integer. -/
inductive Token where
  | NewLine : Token
  | CarriageReturn : Token
  | Whitespace : Nat → Token
  | Word : List Char → Token
deriving DecidableEq

/-- The zero-width space character U+200B. -/
def zwsp : Char := '\u200B'

/-- The non-breaking space character U+00A0. -/
def nbsp : Char := '\u00A0'

/-- Embedding of Rust `char::is_whitespace`: the Unicode White_Space property. -/
def rustIsWhitespace (c : Char) : Bool :=
  (decide (0x9 ≤ c.toNat) && decide (c.toNat ≤ 0xD)) || decide (c.toNat = 0x20) ||
  decide (c.toNat = 0x85) || decide (c.toNat = 0xA0) || decide (c.toNat = 0x1680) ||
  (decide (0x2000 ≤ c.toNat) && decide (c.toNat ≤ 0x200A)) || decide (c.toNat = 0x2028) ||
  decide (c.toNat = 0x2029) || decide (c.toNat = 0x202F) || decide (c.toNat = 0x205F) ||
  decide (c.toNat = 0x3000)

/-- Embedding of Rust `char::is_ascii_punctuation`. -/
def rustIsAsciiPunctuation (c : Char) : Bool :=
  (decide (0x21 ≤ c.toNat) && decide (c.toNat ≤ 0x2F)) ||
  (decide (0x3A ≤ c.toNat) && decide (c.toNat ≤ 0x40)) ||
  (decide (0x5B ≤ c.toNat) && decide (c.toNat ≤ 0x60)) ||
  (decide (0x7B ≤ c.toNat) && decide (c.toNat ≤ 0x7E))

/-- Embedding of `Parser::is_word_char` (src/parser.rs line 75). -/
def is_word_char (c : Char) : Bool :=
  (!rustIsWhitespace c || c == nbsp) && !(c == zwsp)

/-- Embedding of `Parser::is_space_char` (src/parser.rs line 79). -/
def is_space_char (c : Char) : Bool :=
  (rustIsWhitespace c && !(c == '\n' || c == '\r' || c == nbsp || c == zwsp)) || c == zwsp

/-- Embedding of `Parser::is_breaking_char` (src/parser.rs line 85). -/
def is_breaking_char (c : Char) : Bool := rustIsAsciiPunctuation c

/-- Embedding of the inner word-scanning loop of `Iterator::next` for `Parser`
(src/parser.rs lines 108 to 127). `tok` is the prefix already confirmed as part
of the current word token; the second argument is the scan-ahead iterator.
Termination of each arm of the Rust loop is mirrored exactly: a breaking word
character is consumed into the token and ends it, a non-word character ends the
token without being consumed, and running out of characters emits the whole
accumulated word. -/
def wordNextLoop (tok : List Char) : List Char → Token × List Char
  | [] => (Token.Word tok, [])
  | c :: it =>
    if is_word_char c then
      if is_breaking_char c then (Token.Word (tok ++ [c]), it)
      else wordNextLoop (tok ++ [c]) it
    else (Token.Word tok, c :: it)

/-- Embedding of the inner whitespace-scanning loop of `Iterator::next` for
`Parser` (src/parser.rs lines 135 to 150). Zero-width spaces are consumed but
do not increment the visible run length. The counter `len` is a u32 in the
source (`let mut len = 1; ... len += 1;`), so the increment is taken modulo
4294967296, the release-build wrap of the machine integer. -/
def spaceNextLoop (len : Nat) : List Char → Token × List Char
  | [] => (Token.Whitespace len, [])
  | c :: it =>
    if is_space_char c then
      spaceNextLoop (if c == zwsp then len else (len + 1) % 4294967296) it
    else (Token.Whitespace len, c :: it)

/-- Embedding of `Iterator::next` for `Parser` (src/parser.rs lines 94 to 160),
acting on the remaining characters and returning the emitted token together
with the remaining characters afterwards. The zero-width-space arm of the Rust
match continues the outer loop, which is the recursive call here. -/
def pnext : List Char → Option (Token × List Char)
  | [] => none
  | c :: rest =>
    if is_word_char c then
      if is_breaking_char c then some (Token.Word [c], rest)
      else some (wordNextLoop [c] rest)
    else if c == '\n' then some (Token.NewLine, rest)
    else if c == '\r' then some (Token.CarriageReturn, rest)
    else if c == zwsp then pnext rest
    else some (spaceNextLoop 1 rest)

/-- Fuel-indexed iteration of `pnext`, collecting all emitted tokens. -/
def parseTokensFuel : Nat → List Char → List Token
  | 0, _ => []
  | fuel + 1, s =>
    match pnext s with
    | none => []
    | some (t, rest) => t :: parseTokensFuel fuel rest

/-- The full token stream of an input, as produced by exhausting the parser
iterator. A fuel of one more than the character count always suffices because
every emitted token consumes at least one character. -/
def parseTokens (s : List Char) : List Token :=
  parseTokensFuel (s.length + 1) s

/-- Embedding of the `Parser` struct (src/parser.rs line 41): the `inner`
character iterator is the list of remaining characters. -/
structure Parser where
  inner : List Char

/-- Embedding of `Parser::parse` (src/parser.rs line 49). -/
def Parser.parse (text : List Char) : Parser := { inner := text }

/-- Embedding of `Iterator::next` for `Parser` at the struct level, returning
the token and the successor parser state. When the iterator is exhausted the
Rust loop has consumed every remaining character. -/
def Parser.nextM (p : Parser) : Option Token × Parser :=
  match pnext p.inner with
  | none => (none, { inner := [] })
  | some (t, rest) => (some t, { inner := rest })

/-- Embedding of `Parser::peek` (src/parser.rs line 58): run `next` on a clone
of the parser and return only the token, leaving the receiver untouched. -/
def Parser.peek (p : Parser) : Option Token :=
  (Parser.nextM { inner := p.inner }).1

/-- The characters a token stands for: a word is its span, a whitespace run of
length n stands for n space-equivalent characters, and the newline and carriage
return tokens stand for their single character. -/
def tokenChars : Token → List Char
  | Token.NewLine => ['\n']
  | Token.CarriageReturn => ['\r']
  | Token.Whitespace n => List.replicate n ' '
  | Token.Word w => w

/-- Concatenation of the characters of a token stream, in order. -/
def tokensChars : List Token → List Char
  | [] => []
  | t :: ts => tokenChars t ++ tokensChars ts

/-- Normalization of a character to its space-equivalent: characters that are
part of a whitespace run are compared as a plain space. -/
def normChar (c : Char) : Char :=
  if is_space_char c then ' ' else c

/-- A drawable pixel: an absolute position and a binary color, embedding
`Pixel<C>` for a binary color type. -/
structure Pixel where
  x : Int
  y : Int
  colorOn : Bool
deriving DecidableEq

/-- A bounding rectangle given by its two corner points, embedding
`Rectangle::new(Point, Point)`. -/
structure Rect where
  left : Int
  top : Int
  right : Int
  bottom : Int
deriving DecidableEq

/-- Fuel-indexed exhaustion of a pull-based pixel iterator given by its step
function: collect every pixel the iterator yields, in order. -/
def runIter {σ : Type} (step : σ → Option (Pixel × σ)) : Nat → σ → List Pixel
  | 0, _ => []
  | fuel + 1, s =>
    match step s with
    | none => []
    | some (p, s2) => p :: runIter step fuel s2

/-- State of `StyledFramedTextIterator<C, F, RightAligned>`: the rendering
iterator owns a parser over the text and the bounding rectangle. The fields are
never inspected by the right-aligned `next` implementation below, which is
exactly what src/alignment/right.rs does. -/
structure RightAlignedFramedState where
  parser : List Char
  bounds : Rect
deriving DecidableEq

/-- Embedding of the `Iterator::next` implementation for
`StyledFramedTextIterator<C, F, RightAligned>` (src/alignment/right.rs lines
21 to 31): the body unconditionally returns `None`. -/
def rightAlignedFramedNext (_s : RightAlignedFramedState) :
    Option (Pixel × RightAlignedFramedState) :=
  none

/-- The scenario-4 benchmark state: text from benches/render.rs, a 15-character
6-pixel-per-character monospace line inside a rectangle of width 90 pixels,
as in `Rectangle::new(Point::zero(), Point::new(6 * 15 - 1, 7))`. -/
def benchmarkRightState : RightAlignedFramedState :=
  { parser := "Benchmark text!".toList
    bounds := { left := 0, top := 0, right := 89, bottom := 7 } }

/-- Embedding of `TextBoxStyle` as used by the rendering iterator: the color
configuration of the style. -/
structure TextBoxStyleM (C : Type) where
  text_color : Option C
  background_color : Option C
deriving DecidableEq

/-- Embedding of `StyledTextBox`: the text slice, the bounding rectangle and
the style. -/
structure StyledTextBoxM (C : Type) where
  text : List Char
  bounds : Rect
  style : TextBoxStyleM C
deriving DecidableEq

/-- The mutable pixel-position tracker of the rendering iterator. -/
structure Cursor where
  x : Int
  y : Int
  bounds : Rect
deriving DecidableEq

/-- Modelled from the spec: `Cursor::new(rectangle)` (rendering/cursor.rs is
not among the sources). Per section 4.2 the cursor tracks the current position
inside the bounding rectangle, starting at the start of the first line. -/
def Cursor.new (r : Rect) : Cursor :=
  { x := r.left, y := r.top, bounds := r }

/-- Embedding of `StyledTextBoxIterator::new` (src/rendering/mod.rs lines 56
to 65). The function is generic over the vertical alignment and the alignment
state factory exactly as the Rust code is generic over `V` and the
`StateFactory` implementation: `V::apply_vertical_alignment` and
`create_state` are taken as function arguments. It builds a cursor from the
bounds, applies the vertical alignment, and packages the style together with
the state created from the adjusted cursor and a fresh parser over the text. -/
def styledTextBoxIteratorNew {C σ : Type}
    (applyVerticalAlignment : Cursor → StyledTextBoxM C → Cursor)
    (createState : StyledTextBoxM C → Cursor → Parser → σ)
    (styled : StyledTextBoxM C) : TextBoxStyleM C × σ :=
  let cursor := Cursor.new styled.bounds
  let cursor2 := applyVerticalAlignment cursor styled
  (styled.style, createState styled cursor2 (Parser.parse styled.text))

/-- A concrete styled text box used to instantiate the determinism theorem. -/
def demoStyledTextBox : StyledTextBoxM Bool :=
  { text := "Hi".toList
    bounds := { left := 0, top := 0, right := 10, bottom := 10 }
    style := { text_color := some true, background_color := none } }

/-- Embedding of `TextStyle` from the embedded-graphics interface as consumed
by the builder: the two optional colors. -/
structure TextStyleM (C : Type) where
  text_color : Option C
  background_color : Option C
deriving DecidableEq

/-- Embedding of `TextStyleBuilder` from the embedded-graphics interface: the
colors configured so far. -/
structure TextStyleBuilderM (C : Type) where
  text_color : Option C
  background_color : Option C
deriving DecidableEq

/-- The external `TextStyleBuilder::text_color` setter: records the color. -/
def TextStyleBuilderM.setTextColor {C : Type} (b : TextStyleBuilderM C) (c : C) :
    TextStyleBuilderM C :=
  { b with text_color := some c }

/-- The external `TextStyleBuilder::background_color` setter: records the
color. -/
def TextStyleBuilderM.setBackgroundColor {C : Type} (b : TextStyleBuilderM C) (c : C) :
    TextStyleBuilderM C :=
  { b with background_color := some c }

/-- Embedding of `TextBoxStyleBuilder` (src/style/builder.rs lines 9 to 17):
an inner text style builder plus the alignment. -/
structure TextBoxStyleBuilderM (C A : Type) where
  text_style_builder : TextStyleBuilderM C
  alignment : A
deriving DecidableEq

/-- Embedding of `TextBoxStyleBuilder::text_style` (src/style/builder.rs lines
61 to 79): copy the background color of the argument if present, then the text
color of the argument if present, leaving every other field of the builder
untouched. -/
def TextBoxStyleBuilderM.text_style {C A : Type} (self : TextBoxStyleBuilderM C A)
    (ts : TextStyleM C) : TextBoxStyleBuilderM C A :=
  let tsb := self.text_style_builder
  let tsb2 :=
    match ts.background_color with
    | some color => tsb.setBackgroundColor color
    | none => tsb
  let tsb3 :=
    match ts.text_color with
    | some color => tsb2.setTextColor color
    | none => tsb2
  { self with text_style_builder := tsb3 }

/-- A concrete builder used to instantiate the frame-effect theorem. -/
def demoBuilder : TextBoxStyleBuilderM Nat Bool :=
  { text_style_builder := { text_color := some 1, background_color := some 2 }
    alignment := true }

/-- A concrete text style with both colors absent, used to instantiate the
frame-effect theorem. -/
def demoTextStyle : TextStyleM Nat :=
  { text_color := none, background_color := none }

theorem word_char_ne_zwsp {c : Char} (h : is_word_char c = true) : (c == zwsp) = false := by
  simp only [is_word_char, Bool.and_eq_true, Bool.not_eq_true'] at h
  exact h.2

theorem word_char_not_space {c : Char} (h : is_word_char c = true) : is_space_char c = false := by
  have hz := word_char_ne_zwsp h
  simp only [is_word_char, Bool.and_eq_true, Bool.or_eq_true, Bool.not_eq_true'] at h
  rcases h.1 with hw | hn
  · simp [is_space_char, hz, hw]
  · simp [is_space_char, hz, hn]

theorem nonword_char_space {c : Char} (h : is_word_char c = false)
    (h1 : (c == '\n') = false) (h2 : (c == '\r') = false) (h3 : (c == zwsp) = false) :
    is_space_char c = true := by
  rw [is_word_char, h3] at h
  simp only [Bool.not_false, Bool.and_true, Bool.or_eq_false_iff, Bool.not_eq_false'] at h
  simp [is_space_char, h.1, h.2, h1, h2, h3]

theorem punct_word_char {c : Char} (h : is_breaking_char c = true) : is_word_char c = true := by
  have hn := h
  simp only [is_breaking_char, rustIsAsciiPunctuation, Bool.or_eq_true, Bool.and_eq_true,
    decide_eq_true_eq] at hn
  have hW : rustIsWhitespace c = false := by
    rw [Bool.eq_false_iff]
    intro hw
    simp only [rustIsWhitespace, Bool.or_eq_true, Bool.and_eq_true, decide_eq_true_eq] at hw
    omega
  have hz : (c == zwsp) = false := by
    rw [Bool.eq_false_iff]
    intro hzz
    have hcz : c = zwsp := by simpa using hzz
    subst hcz
    exact absurd hn (by decide)
  simp [is_word_char, hW, hz]

theorem word_filter_map {l : List Char} (h : ∀ x ∈ l, is_word_char x = true) :
    (l.filter (fun c => !(c == zwsp))).map normChar = l := by
  induction l with
  | nil => simp
  | cons x xs ih =>
    have hx := h x (List.mem_cons_self x xs)
    have hxs : ∀ y ∈ xs, is_word_char y = true := fun y hy => h y (List.mem_cons_of_mem x hy)
    simp [List.filter_cons, word_char_ne_zwsp hx, normChar, word_char_not_space hx, ih hxs]

theorem space_filter_map {l : List Char} (h : ∀ x ∈ l, is_space_char x = true) :
    (l.filter (fun c => !(c == zwsp))).map normChar =
      List.replicate ((l.filter (fun c => !(c == zwsp))).length) ' ' := by
  induction l with
  | nil => simp
  | cons x xs ih =>
    have hx := h x (List.mem_cons_self x xs)
    have hxs : ∀ y ∈ xs, is_space_char y = true := fun y hy => h y (List.mem_cons_of_mem x hy)
    by_cases hz : (x == zwsp) = true
    · simp [List.filter_cons, hz, ih hxs]
    · simp [List.filter_cons, hz, normChar, hx, ih hxs, List.replicate_succ]

theorem wordNextLoop_decomp (iter : List Char) : ∀ tok : List Char, ∃ mid rest2,
    wordNextLoop tok iter = (Token.Word (tok ++ mid), rest2) ∧ iter = mid ++ rest2 ∧
    ∀ c ∈ mid, is_word_char c = true := by
  induction iter with
  | nil =>
    intro tok
    exact ⟨[], [], by simp [wordNextLoop], by simp, by simp⟩
  | cons c it ih =>
    intro tok
    by_cases hw : is_word_char c = true
    · by_cases hb : is_breaking_char c = true
      · refine ⟨[c], it, ?_, by simp, ?_⟩
        · simp [wordNextLoop, hw, hb]
        · intro x hx
          rcases List.mem_singleton.mp hx with hx
          subst hx
          exact hw
      · obtain ⟨mid, rest2, h1, h2, h3⟩ := ih (tok ++ [c])
        refine ⟨c :: mid, rest2, ?_, by simp [h2], ?_⟩
        · simp only [wordNextLoop, hw, if_true]
          rw [if_neg hb, h1]
          simp
        · intro x hx
          rcases List.mem_cons.mp hx with hx | hx
          · subst hx; exact hw
          · exact h3 x hx
    · refine ⟨[], c :: it, ?_, by simp, by simp⟩
      simp [wordNextLoop, hw]

theorem spaceNextLoop_decomp (iter : List Char) : ∀ len : Nat, len < 4294967296 →
    ∃ mid rest2,
    spaceNextLoop len iter =
      (Token.Whitespace ((len + (mid.filter (fun c => !(c == zwsp))).length) % 4294967296),
        rest2) ∧
    iter = mid ++ rest2 ∧ ∀ c ∈ mid, is_space_char c = true := by
  induction iter with
  | nil =>
    intro len hlen
    exact ⟨[], [], by simp [spaceNextLoop, Nat.mod_eq_of_lt hlen], by simp, by simp⟩
  | cons c it ih =>
    intro len hlen
    by_cases hs : is_space_char c = true
    · by_cases hz : (c == zwsp) = true
      · obtain ⟨mid, rest2, h1, h2, h3⟩ := ih len hlen
        refine ⟨c :: mid, rest2, ?_, by simp [h2], ?_⟩
        · simp only [spaceNextLoop, hs, if_true, hz]
          rw [h1]
          simp [List.filter_cons, hz]
        · intro x hx
          rcases List.mem_cons.mp hx with hx | hx
          · subst hx; exact hs
          · exact h3 x hx
      · obtain ⟨mid, rest2, h1, h2, h3⟩ :=
          ih ((len + 1) % 4294967296) (Nat.mod_lt _ (by norm_num))
        refine ⟨c :: mid, rest2, ?_, by simp [h2], ?_⟩
        · simp only [spaceNextLoop, hs, if_true]
          rw [if_neg hz, h1]
          rw [Nat.mod_add_mod]
          simp [List.filter_cons, hz]
          congr 1
          omega
        · intro x hx
          rcases List.mem_cons.mp hx with hx | hx
          · subst hx; exact hs
          · exact h3 x hx
    · refine ⟨[], c :: it, ?_, by simp, by simp⟩
      simp [spaceNextLoop, hs, Nat.mod_eq_of_lt hlen]

theorem pnext_decomp : ∀ s t rest, pnext s = some (t, rest) →
    ∃ pre, pre ≠ [] ∧ s = pre ++ rest ∧
      (pre.length < 4294967296 →
        tokenChars t = (pre.filter (fun c => !(c == zwsp))).map normChar) := by
  intro s
  induction s with
  | nil => intro t rest h; simp [pnext] at h
  | cons c s2 ih =>
    intro t rest h
    by_cases hw : is_word_char c = true
    · by_cases hb : is_breaking_char c = true
      · have hun : pnext (c :: s2) = some (Token.Word [c], s2) := by
          simp [pnext, hw, hb]
        rw [hun] at h
        simp only [Option.some.injEq, Prod.mk.injEq] at h
        obtain ⟨ht, hr⟩ := h
        subst ht
        subst hr
        refine ⟨[c], by simp, by simp, ?_⟩
        intro hlen
        simp [tokenChars, List.filter_cons, word_char_ne_zwsp hw, normChar,
          word_char_not_space hw]
      · have hun : pnext (c :: s2) = some (wordNextLoop [c] s2) := by
          simp [pnext, hw, hb]
        rw [hun] at h
        obtain ⟨mid, rest2, h1, h2, h3⟩ := wordNextLoop_decomp s2 [c]
        rw [h1] at h
        simp only [Option.some.injEq, Prod.mk.injEq] at h
        obtain ⟨ht, hr⟩ := h
        subst ht
        subst hr
        refine ⟨c :: mid, by simp, by simp [h2], ?_⟩
        intro hlen
        have hall : ∀ x ∈ c :: mid, is_word_char x = true := by
          intro x hx
          rcases List.mem_cons.mp hx with hx | hx
          · subst hx; exact hw
          · exact h3 x hx
        simp [tokenChars, word_filter_map hall]
    · by_cases hn : (c == '\n') = true
      · have hc : c = '\n' := by simpa using hn
        have hun : pnext (c :: s2) = some (Token.NewLine, s2) := by
          simp [pnext, hw, hn]
        rw [hun] at h
        simp only [Option.some.injEq, Prod.mk.injEq] at h
        obtain ⟨ht, hr⟩ := h
        subst ht
        subst hr
        subst hc
        refine ⟨['\n'], by simp, by simp, by decide⟩
      · by_cases hr2 : (c == '\r') = true
        · have hc : c = '\r' := by simpa using hr2
          have hun : pnext (c :: s2) = some (Token.CarriageReturn, s2) := by
            simp [pnext, hw, hn, hr2]
          rw [hun] at h
          simp only [Option.some.injEq, Prod.mk.injEq] at h
          obtain ⟨ht, hr⟩ := h
          subst ht
          subst hr
          subst hc
          refine ⟨['\r'], by simp, by simp, by decide⟩
        · by_cases hz : (c == zwsp) = true
          · have hun : pnext (c :: s2) = pnext s2 := by
              simp [pnext, hw, hn, hr2, hz]
            rw [hun] at h
            obtain ⟨pre, hne, hpre, htok⟩ := ih t rest h
            refine ⟨c :: pre, by simp, by simp [hpre], ?_⟩
            intro hlen
            have hprelen : pre.length < 4294967296 := by
              simp only [List.length_cons] at hlen
              omega
            rw [List.filter_cons]
            simp only [hz, Bool.not_true, if_false]
            exact htok hprelen
          · have hun : pnext (c :: s2) = some (spaceNextLoop 1 s2) := by
              simp [pnext, hw, hn, hr2, hz]
            rw [hun] at h
            obtain ⟨mid, rest2, h1, h2, h3⟩ := spaceNextLoop_decomp s2 1 (by norm_num)
            rw [h1] at h
            simp only [Option.some.injEq, Prod.mk.injEq] at h
            obtain ⟨ht, hr⟩ := h
            subst ht
            subst hr
            have hsp : is_space_char c = true :=
              nonword_char_space (Bool.eq_false_iff.mpr hw) (Bool.eq_false_iff.mpr hn)
                (Bool.eq_false_iff.mpr hr2) (Bool.eq_false_iff.mpr hz)
            refine ⟨c :: mid, by simp, by simp [h2], ?_⟩
            intro hlen
            have hk : (mid.filter (fun x => !(x == zwsp))).length ≤ mid.length :=
              List.length_filter_le _ _
            have hlt : 1 + (mid.filter (fun x => !(x == zwsp))).length < 4294967296 := by
              simp only [List.length_cons] at hlen
              omega
            rw [List.filter_cons]
            simp only [hz, Bool.not_false, if_true]
            rw [List.map_cons, space_filter_map h3]
            simp only [tokenChars, normChar, hsp, if_true]
            rw [Nat.mod_eq_of_lt hlt, Nat.add_comm 1, List.replicate_succ]

theorem pnext_shrink : ∀ s t rest, pnext s = some (t, rest) → rest.length < s.length := by
  intro s t rest h
  obtain ⟨pre, hne, hpre, _⟩ := pnext_decomp s t rest h
  have h0 : 0 < pre.length := List.length_pos.mpr hne
  subst hpre
  simp only [List.length_append]
  omega

theorem pnext_none_iff : ∀ s : List Char, pnext s = none ↔ ∀ c ∈ s, c = zwsp := by
  intro s
  induction s with
  | nil => simp [pnext]
  | cons c s2 ih =>
    by_cases hw : is_word_char c = true
    · have hcz : c ≠ zwsp := by
        intro hc
        subst hc
        exact absurd hw (by decide)
      constructor
      · intro h
        by_cases hb : is_breaking_char c = true
        · simp [pnext, hw, hb] at h
        · simp [pnext, hw, hb] at h
      · intro h
        exact absurd (h c (List.mem_cons_self c s2)) hcz
    · by_cases hn : (c == '\n') = true
      · have hc : c = '\n' := by simpa using hn
        subst hc
        constructor
        · intro h
          simp [pnext, hw, hn] at h
        · intro h
          exact absurd (h _ (List.mem_cons_self _ s2)) (by decide)
      · by_cases hr2 : (c == '\r') = true
        · have hc : c = '\r' := by simpa using hr2
          subst hc
          constructor
          · intro h
            simp [pnext, hw, hn, hr2] at h
          · intro h
            exact absurd (h _ (List.mem_cons_self _ s2)) (by decide)
        · by_cases hz : (c == zwsp) = true
          · have hc : c = zwsp := by simpa using hz
            subst hc
            have hstep : pnext (zwsp :: s2) = pnext s2 := by
              simp [pnext, hw, hn, hr2]
            rw [hstep, ih]
            simp
          · have hcz : c ≠ zwsp := by
              intro hc
              subst hc
              simp at hz
            constructor
            · intro h
              simp [pnext, hw, hn, hr2, hz] at h
            · intro h
              exact absurd (h c (List.mem_cons_self c s2)) hcz

theorem filter_zwsp_nil {s : List Char} (h : ∀ c ∈ s, c = zwsp) :
    s.filter (fun c => !(c == zwsp)) = [] := by
  induction s with
  | nil => simp
  | cons c s2 ih =>
    have hc : c = zwsp := h c (List.mem_cons_self c s2)
    subst hc
    simp [List.filter_cons, ih (fun y hy => h y (List.mem_cons_of_mem _ hy))]

theorem parseTokensFuel_invar : ∀ f1 : Nat, ∀ f2 s, s.length < f1 → s.length < f2 →
    parseTokensFuel f1 s = parseTokensFuel f2 s := by
  intro f1
  induction f1 with
  | zero =>
    intro f2 s h1 h2
    omega
  | succ f ih =>
    intro f2 s h1 h2
    cases f2 with
    | zero => omega
    | succ g =>
      cases hp : pnext s with
      | none => simp [parseTokensFuel, hp]
      | some tr =>
        obtain ⟨t, rest⟩ := tr
        have hlt := pnext_shrink s t rest hp
        simp only [parseTokensFuel, hp]
        rw [ih g rest (by omega) (by omega)]

theorem parseTokens_cons {s : List Char} {t : Token} {rest : List Char}
    (h : pnext s = some (t, rest)) : parseTokens s = t :: parseTokens rest := by
  have hlt := pnext_shrink s t rest h
  unfold parseTokens
  have h1 : parseTokensFuel (s.length + 1) s = t :: parseTokensFuel s.length rest := by
    simp [parseTokensFuel, h]
  rw [h1, parseTokensFuel_invar s.length (rest.length + 1) rest (by omega) (by omega)]

theorem parseTokens_nil_of_none {s : List Char} (h : pnext s = none) : parseTokens s = [] := by
  unfold parseTokens
  simp [parseTokensFuel, h]

theorem tokensChars_parseTokensFuel : ∀ f : Nat, ∀ s : List Char, s.length < f →
    s.length < 4294967296 →
    tokensChars (parseTokensFuel f s) = (s.filter (fun c => !(c == zwsp))).map normChar := by
  intro f
  induction f with
  | zero =>
    intro s h hbound
    omega
  | succ g ih =>
    intro s h hbound
    cases hp : pnext s with
    | none =>
      have hall := (pnext_none_iff s).mp hp
      simp [parseTokensFuel, hp, tokensChars, filter_zwsp_nil hall]
    | some tr =>
      obtain ⟨t, rest⟩ := tr
      obtain ⟨pre, hne, hpre, htok⟩ := pnext_decomp s t rest hp
      have hlt := pnext_shrink s t rest hp
      have hsplit : s.length = pre.length + rest.length := by
        rw [hpre, List.length_append]
      simp only [parseTokensFuel, hp, tokensChars]
      rw [htok (by omega), ih rest (by omega) (by omega), hpre, List.filter_append,
        List.map_append]

theorem wordNextLoop_through (mid : List Char) : ∀ tok suf : List Char,
    (∀ x ∈ mid, is_word_char x = true ∧ is_breaking_char x = false) →
    wordNextLoop tok (mid ++ suf) = wordNextLoop (tok ++ mid) suf := by
  induction mid with
  | nil =>
    intro tok suf h
    simp
  | cons x xs ih =>
    intro tok suf h
    have hx := h x (List.mem_cons_self x xs)
    have hxs : ∀ y ∈ xs, is_word_char y = true ∧ is_breaking_char y = false :=
      fun y hy => h y (List.mem_cons_of_mem x hy)
    simp only [List.cons_append, wordNextLoop, hx.1, if_true]
    rw [if_neg (Bool.eq_false_iff.mp hx.2)]
    simp only [List.append_eq]
    rw [ih (tok ++ [x]) suf hxs]
    simp

theorem pnext_space_cons {c : Char} (s : List Char) (hw : is_word_char c = false)
    (hn : (c == '\n') = false) (hr : (c == '\r') = false) (hz : (c == zwsp) = false) :
    pnext (c :: s) = some (spaceNextLoop 1 s) := by
  simp [pnext, hw, hn, hr, hz]

theorem spaceNextLoop_replicate_space : ∀ n len : Nat, len < 4294967296 →
    spaceNextLoop len (List.replicate n ' ') =
      (Token.Whitespace ((len + n) % 4294967296), []) := by
  intro n
  induction n with
  | zero =>
    intro len hlen
    simp [spaceNextLoop, Nat.mod_eq_of_lt hlen]
  | succ m ih =>
    intro len hlen
    have hsp : is_space_char ' ' = true := by decide
    have hz : (' ' == zwsp) = false := by decide
    rw [List.replicate_succ]
    simp only [spaceNextLoop, hsp, if_true]
    rw [if_neg (Bool.eq_false_iff.mp hz)]
    rw [ih ((len + 1) % 4294967296) (Nat.mod_lt _ (by norm_num))]
    rw [Nat.mod_add_mod]
    have harith : len + 1 + m = len + (m + 1) := by omega
    rw [harith]

/-- C1: the claim states that for a right-aligned style, a 15-character
monospace font of 6 pixels per character, a rectangle of width 90 pixels and
the text Benchmark text!, the rendering iterator produces a non-empty pixel
sequence whose single line is flush with the right edge of the rectangle. The
right-aligned `next` implementation in src/alignment/right.rs unconditionally
returns `None`, so at exactly this input the rendered pixel sequence is empty
no matter how long the iterator is driven. -/
theorem right_aligned_scenario4_renders_nothing :
    ∀ fuel : Nat, runIter rightAlignedFramedNext fuel benchmarkRightState = [] := by
  intro fuel
  cases fuel with
  | zero => rfl
  | succ f => rfl

/-- C2 counterexample: in the input ab,cd the interior comma is not emitted as
its own one-character Word token; it is attached as the final character of the
preceding word token. -/
theorem punctuation_attached_counterexample :
    parseTokens ("ab,cd".toList) = [Token.Word ("ab,".toList), Token.Word ("cd".toList)] ∧
    Token.Word [','] ∉ parseTokens ("ab,cd".toList) := by
  decide

/-- C2 amended: an ASCII punctuation character that starts a token is emitted
as its own one-character Word token, and an ASCII punctuation character
reached inside a word run terminates that word token early and is attached as
its final character rather than forming a separate token. -/
theorem punctuation_carve_out :
    (∀ (c : Char) (rest : List Char), is_breaking_char c = true →
      pnext (c :: rest) = some (Token.Word [c], rest)) ∧
    (∀ (w : List Char) (c : Char) (rest : List Char), w ≠ [] →
      (∀ x ∈ w, is_word_char x = true ∧ is_breaking_char x = false) →
      is_breaking_char c = true →
      pnext (w ++ c :: rest) = some (Token.Word (w ++ [c]), rest)) := by
  constructor
  · intro c rest h
    have hw := punct_word_char h
    simp [pnext, hw, h]
  · intro w c rest hne hall hb
    cases w with
    | nil => exact absurd rfl hne
    | cons a w2 =>
      have ha := hall a (List.mem_cons_self a w2)
      have hw2 : ∀ x ∈ w2, is_word_char x = true ∧ is_breaking_char x = false :=
        fun y hy => hall y (List.mem_cons_of_mem a hy)
      have hun : pnext ((a :: w2) ++ c :: rest) = some (wordNextLoop [a] (w2 ++ c :: rest)) := by
        simp [pnext, ha.1, ha.2]
      rw [hun, wordNextLoop_through w2 [a] (c :: rest) hw2]
      have hcw := punct_word_char hb
      simp only [wordNextLoop, hcw, hb, if_true]
      simp

/-- C2 witness: a punctuation character at the start of the input forms a
one-character Word token, and a punctuation character after the word ab ends
the word token ab, with the comma attached. -/
theorem punctuation_carve_out_witness :
    pnext (',' :: "x".toList) = some (Token.Word [','], "x".toList) ∧
    pnext ("ab".toList ++ ',' :: "cd".toList) =
      some (Token.Word ("ab".toList ++ [',']), "cd".toList) :=
  ⟨punctuation_carve_out.1 ',' ("x".toList) (by decide),
   punctuation_carve_out.2 ("ab".toList) ',' ("cd".toList) (by decide) (by decide) (by decide)⟩

/-- C3 counterexample: an input consisting only of zero-width-space characters
produces no token at all, not a single Whitespace token of run length one. -/
theorem zwsp_only_counterexample :
    parseTokens [zwsp] = [] ∧ parseTokens [zwsp] ≠ [Token.Whitespace 1] := by
  decide

/-- C3 amended: an input consisting only of zero-width-space characters yields
no tokens, each zero-width-space being silently skipped; and a zero-width-space
adjacent to other whitespace is counted toward nothing: inside a whitespace run
it never widens the visible run length, and at the start of a token it is
transparent. -/
theorem zwsp_silent :
    (∀ n : Nat, parseTokens (List.replicate n zwsp) = []) ∧
    (∀ (len : Nat) (it : List Char), spaceNextLoop len (zwsp :: it) = spaceNextLoop len it) ∧
    (∀ s : List Char, pnext (zwsp :: s) = pnext s) := by
  refine ⟨?_, ?_, ?_⟩
  · intro n
    apply parseTokens_nil_of_none
    rw [pnext_none_iff]
    intro c hc
    exact List.eq_of_mem_replicate hc
  · intro len it
    have h1 : is_space_char zwsp = true := by decide
    simp [spaceNextLoop, h1]
  · intro s
    have h2 : is_word_char zwsp = false := by decide
    have h3 : (zwsp == '\n') = false := by decide
    have h4 : (zwsp == '\r') = false := by decide
    simp [pnext, h2, h3, h4]

/-- C4: for every parser state, peek returns exactly the Option token that a
subsequent next call returns, and peek leaves the remaining unparsed input
unchanged, operating on a disposable copy of the cursor. -/
theorem peek_agrees_with_next :
    ∀ p : Parser, Parser.peek p = (Parser.nextM p).1 := by
  intro p
  rfl

/-- C5 counterexample: the original round-trip claim fails at a whitespace run
of 4294967297 spaces, one more than 2 to the power 32: the u32 run counter
wraps modulo 4294967296 and the run tokenizes to a single Whitespace token of
length 1, so the concatenated token spans have one character where the input,
with no zero-width-space removed, has 4294967297. -/
theorem roundtrip_wrap_counterexample :
    parseTokens (List.replicate 4294967297 ' ') = [Token.Whitespace 1] ∧
    tokensChars (parseTokens (List.replicate 4294967297 ' ')) ≠
      ((List.replicate 4294967297 ' ').filter (fun c => !(c == zwsp))).map normChar := by
  have hone : (4294967297 : Nat) = 4294967296 + 1 := by norm_num
  have hrep : List.replicate 4294967297 ' ' = ' ' :: List.replicate 4294967296 ' ' := by
    rw [hone, List.replicate_succ]
  have hstep : pnext (' ' :: List.replicate 4294967296 ' ') =
      some (spaceNextLoop 1 (List.replicate 4294967296 ' ')) :=
    pnext_space_cons (List.replicate 4294967296 ' ') (by decide) (by decide) (by decide)
      (by decide)
  have hmod : (1 + 4294967296) % 4294967296 = 1 := by norm_num
  have hpn : pnext (List.replicate 4294967297 ' ') = some (Token.Whitespace 1, []) := by
    rw [hrep, hstep, spaceNextLoop_replicate_space 4294967296 1 (by norm_num), hmod]
  have hpt : parseTokens (List.replicate 4294967297 ' ') = [Token.Whitespace 1] := by
    rw [parseTokens_cons hpn, parseTokens_nil_of_none (show pnext [] = none from rfl)]
  refine ⟨hpt, ?_⟩
  rw [hpt]
  have hfil : (List.replicate 4294967297 ' ').filter (fun c => !(c == zwsp)) =
      List.replicate 4294967297 ' ' := by
    apply List.filter_eq_self.mpr
    intro a ha
    have haa : a = ' ' := List.eq_of_mem_replicate ha
    subst haa
    decide
  rw [hfil, List.map_replicate]
  have hnorm : normChar ' ' = ' ' := by decide
  rw [hnorm]
  intro hcontra
  have hlen := congrArg List.length hcontra
  simp only [tokensChars, tokenChars, List.length_append, List.length_replicate,
    List.length_nil] at hlen
  omega

/-- C5 amended: tokenizer round-trip — concatenating, in order, the spans of
all Word tokens, the run lengths of all Whitespace tokens as that many
space-equivalent characters, and the single characters of NewLine and
CarriageReturn tokens reproduces the original input character for character,
except for the characters removed by the silent zero-width-space rule,
provided the input is shorter than 2 to the power 32 characters, so that no
whitespace run can reach the wrap point of the u32 run counter. -/
theorem tokenizer_roundtrip :
    ∀ s : List Char, s.length < 4294967296 →
      tokensChars (parseTokens s) = (s.filter (fun c => !(c == zwsp))).map normChar := by
  intro s h
  exact tokensChars_parseTokensFuel (s.length + 1) s (Nat.lt_succ_self _) h

/-- C5 witness: the round-trip at a concrete short input containing a word, a
space and another word. -/
theorem tokenizer_roundtrip_witness :
    tokensChars (parseTokens ("ab cd".toList)) =
      (("ab cd".toList).filter (fun c => !(c == zwsp))).map normChar :=
  tokenizer_roundtrip ("ab cd".toList) (by decide)

/-- C6: the input of scenario 1 tokenizes exactly to the word Hello with comma,
one space of whitespace, the word world with exclamation mark, and a newline
token. -/
theorem scenario1_hello_world :
    parseTokens ("Hello, world!\n".toList) =
      [Token.Word ("Hello,".toList), Token.Whitespace 1, Token.Word ("world!".toList),
       Token.NewLine] := by
  decide

/-- C7: the input of scenario 2 tokenizes exactly to the two words two and
words: the zero-width-space splits the word run without becoming a token or
part of either token span. -/
theorem scenario2_zwsp_split :
    parseTokens ("two​words".toList) =
      [Token.Word ("two".toList), Token.Word ("words".toList)] := by
  decide

/-- C8: tokenization is total and safe. The empty input immediately yields no
token; every emitted token consumes a non-empty contiguous span of the input
(so the unchecked substring extraction is in bounds and on character
boundaries) and strictly shrinks the remaining input, which bounds the number
of iterations; a word ending exactly at the end of the input is still emitted
as a full Word token; and a trailing zero-width-space at the end of the input
is handled without any out-of-range access. -/
theorem tokenizer_total_safe :
    pnext ([] : List Char) = none ∧
    (∀ (s : List Char) (t : Token) (rest : List Char), pnext s = some (t, rest) →
      ∃ pre, pre ≠ [] ∧ s = pre ++ rest ∧ rest.length < s.length) ∧
    (∀ w : List Char, w ≠ [] →
      (∀ x ∈ w, is_word_char x = true ∧ is_breaking_char x = false) →
      pnext w = some (Token.Word w, [])) ∧
    parseTokens ("word​".toList) = [Token.Word ("word".toList)] := by
  refine ⟨rfl, ?_, ?_, by decide⟩
  · intro s t rest h
    obtain ⟨pre, hne, hpre, _⟩ := pnext_decomp s t rest h
    exact ⟨pre, hne, hpre, pnext_shrink s t rest h⟩
  · intro w hne hall
    cases w with
    | nil => exact absurd rfl hne
    | cons a w2 =>
      have ha := hall a (List.mem_cons_self a w2)
      have hw2 : ∀ x ∈ w2, is_word_char x = true ∧ is_breaking_char x = false :=
        fun y hy => hall y (List.mem_cons_of_mem a hy)
      have hun : pnext (a :: w2) = some (wordNextLoop [a] w2) := by
        simp [pnext, ha.1, ha.2]
      have hthrough := wordNextLoop_through w2 [a] [] hw2
      simp only [List.append_nil, List.singleton_append] at hthrough
      rw [hun, hthrough]
      simp [wordNextLoop]

/-- C8 witness: a word that ends exactly at the end of the input is emitted as
a full Word token, with nothing left to parse. -/
theorem tokenizer_total_safe_witness :
    pnext ("ab".toList) = some (Token.Word ("ab".toList), []) :=
  tokenizer_total_safe.2.2.1 ("ab".toList) (by decide) (by decide)

/-- C9: determinism of layout — constructing the rendering iterator twice from
the same text, rectangle and style, for any pure vertical alignment, any pure
alignment state factory and any pure pixel step function, and exhausting both
iterators yields element-wise identical pixel sequences. -/
theorem layout_deterministic {C σ : Type}
    (applyV : Cursor → StyledTextBoxM C → Cursor)
    (createS : StyledTextBoxM C → Cursor → Parser → σ)
    (step : TextBoxStyleM C × σ → Option (Pixel × (TextBoxStyleM C × σ)))
    (fuel : Nat) (a b : StyledTextBoxM C) (h : a = b) :
    runIter step fuel (styledTextBoxIteratorNew applyV createS a) =
      runIter step fuel (styledTextBoxIteratorNew applyV createS b) := by
  rw [h]

/-- C9 witness: two constructions of the rendering iterator from the same
concrete styled text box produce identical pixel sequences. -/
theorem layout_deterministic_witness :
    runIter (fun _ => none) 5
        (styledTextBoxIteratorNew (fun c _ => c) (fun _ _ _ => ()) demoStyledTextBox) =
      runIter (fun _ => none) 5
        (styledTextBoxIteratorNew (fun c _ => c) (fun _ _ _ => ()) demoStyledTextBox) :=
  layout_deterministic (fun c _ => c) (fun _ _ _ => ()) (fun _ => none) 5
    demoStyledTextBox demoStyledTextBox rfl

/-- C10: the text_style method of the builder copies only the colors present
in its argument: an absent text or background color leaves the corresponding
previously configured color of the builder unchanged, a present color
overwrites only that color, and the alignment field is never modified. -/
theorem text_style_copies_only_present {C A : Type}
    (b : TextBoxStyleBuilderM C A) (ts : TextStyleM C) :
    (ts.text_color = none →
      (TextBoxStyleBuilderM.text_style b ts).text_style_builder.text_color =
        b.text_style_builder.text_color) ∧
    (ts.background_color = none →
      (TextBoxStyleBuilderM.text_style b ts).text_style_builder.background_color =
        b.text_style_builder.background_color) ∧
    (∀ c : C, ts.text_color = some c →
      (TextBoxStyleBuilderM.text_style b ts).text_style_builder.text_color = some c) ∧
    (∀ c : C, ts.background_color = some c →
      (TextBoxStyleBuilderM.text_style b ts).text_style_builder.background_color = some c) ∧
    (TextBoxStyleBuilderM.text_style b ts).alignment = b.alignment := by
  obtain ⟨tc, bc⟩ := ts
  cases tc <;> cases bc <;>
    simp [TextBoxStyleBuilderM.text_style, TextStyleBuilderM.setTextColor,
      TextStyleBuilderM.setBackgroundColor]

/-- C10 witness: copying from a text style with both colors absent leaves both
configured colors and the alignment of the concrete builder unchanged. -/
theorem text_style_copies_only_present_witness :
    (TextBoxStyleBuilderM.text_style demoBuilder demoTextStyle).text_style_builder.text_color =
        demoBuilder.text_style_builder.text_color ∧
    (TextBoxStyleBuilderM.text_style demoBuilder demoTextStyle).text_style_builder.background_color =
        demoBuilder.text_style_builder.background_color ∧
    (TextBoxStyleBuilderM.text_style demoBuilder demoTextStyle).alignment =
        demoBuilder.alignment :=
  ⟨(text_style_copies_only_present demoBuilder demoTextStyle).1 rfl,
   (text_style_copies_only_present demoBuilder demoTextStyle).2.1 rfl,
   (text_style_copies_only_present demoBuilder demoTextStyle).2.2.2.2⟩

end EmbeddedText
